import Mathlib

/-!
Shallow embedding of the BIP emoji address codec repository.

The embedding follows the Python sources:
* `src/emoji_codec.py` — `EmojiCodec` with `encode`, `decode`, `_split_emoji`,
  `validate_base58check`, `_base58_decode`, `scan`, and the reverse-mapping
  construction in `__init__`;
* `src/visual_similarity.py` — `calculate_hash_similarity`,
  `find_confusable_pairs`;
* `src/base58_frequency.py` / `src/emoji_frequency.py` — the mapping-building
  loops of `create_optimal_mapping` and `create_steganographic_mapping`.

Python strings are `List Char`, bytes are `List Nat` (each < 256), Python's
unbounded ints are `Nat`, and floating point scores (which are exact dyadic
rationals here: Hamming distances divided by 64, averaged over 4 families)
are `Rat`.
-/

namespace BIP

/-- The canonical 58-symbol alphabet stored in the mapping files
(`data['base58_alphabet']`), as used by `validate_base58check` and
`_base58_decode`. -/
def base58_alphabet : List Char :=
  "123456789ABCDEFGHJKLMNPQRSTUVWXYZabcdefghijkmnopqrstuvwxyz".toList

/-- Fuel-driven big-endian byte expansion; the fuel only serves structural
recursion and is irrelevant once it dominates the value (see
`natToBytesBE_go_congr`). -/
def natToBytesBE.go : Nat → Nat → List Nat
  | _, 0 => []
  | 0, _ + 1 => []
  | f + 1, n + 1 => natToBytesBE.go f ((n + 1) / 256) ++ [(n + 1) % 256]

/-- Minimal big-endian byte string of a natural number: the embedding of
Python's `decoded.to_bytes((decoded.bit_length() + 7) // 8, byteorder='big')`
(which returns the empty byte string for 0). -/
def natToBytesBE (n : Nat) : List Nat := natToBytesBE.go n n

/-- Number of leading zero-symbol characters: the embedding of
`len(address) - len(address.lstrip('1'))`. -/
def leadingOnes (address : List Char) : Nat :=
  (address.takeWhile (fun c => c == '1')).length

/-- The radix-58 MSB-first accumulated value: the loop
`decoded = decoded * 58 + self.base58_alphabet.index(char)`. -/
def base58_value (alphabet : List Char) (address : List Char) : Nat :=
  address.foldl (fun acc c => acc * 58 + alphabet.indexOf c) 0

/-- Embedding of `EmojiCodec._base58_decode` (src/emoji_codec.py lines
173-187): radix-58 accumulation, minimal big-endian bytes, and one 0x00
byte re-prepended for each leading '1'. -/
def base58_decode (alphabet : List Char) (address : List Char) : List Nat :=
  List.replicate (leadingOnes address) 0 ++ natToBytesBE (base58_value alphabet address)

/-! ### SHA-256 (the `hashlib.sha256` calls of `validate_base58check`) -/

/-- Mask to 32 bits. -/
def M32 : Nat := 0xFFFFFFFF

/-- 32-bit right rotation. -/
def rotr (x n : Nat) : Nat :=
  ((x >>> n) ||| (x <<< (32 - n))) &&& M32

/-- SHA-256 small sigma 0. -/
def ssig0 (x : Nat) : Nat := (rotr x 7) ^^^ (rotr x 18) ^^^ (x >>> 3)

/-- SHA-256 small sigma 1. -/
def ssig1 (x : Nat) : Nat := (rotr x 17) ^^^ (rotr x 19) ^^^ (x >>> 10)

/-- SHA-256 big sigma 0. -/
def bsig0 (x : Nat) : Nat := (rotr x 2) ^^^ (rotr x 13) ^^^ (rotr x 22)

/-- SHA-256 big sigma 1. -/
def bsig1 (x : Nat) : Nat := (rotr x 6) ^^^ (rotr x 11) ^^^ (rotr x 25)

/-- SHA-256 choice function. -/
def shaCh (x y z : Nat) : Nat := (x &&& y) ^^^ ((x ^^^ M32) &&& z)

/-- SHA-256 majority function. -/
def shaMaj (x y z : Nat) : Nat := (x &&& y) ^^^ (x &&& z) ^^^ (y &&& z)

/-- The 64 SHA-256 round constants. -/
def shaK : List Nat :=
  [1116352408, 1899447441, 3049323471, 3921009573,
   961987163, 1508970993, 2453635748, 2870763221,
   3624381080, 310598401, 607225278, 1426881987,
   1925078388, 2162078206, 2614888103, 3248222580,
   3835390401, 4022224774, 264347078, 604807628,
   770255983, 1249150122, 1555081692, 1996064986,
   2554220882, 2821834349, 2952996808, 3210313671,
   3336571891, 3584528711, 113926993, 338241895,
   666307205, 773529912, 1294757372, 1396182291,
   1695183700, 1986661051, 2177026350, 2456956037,
   2730485921, 2820302411, 3259730800, 3345764771,
   3516065817, 3600352804, 4094571909, 275423344,
   430227734, 506948616, 659060556, 883997877,
   958139571, 1322822218, 1537002063, 1747873779,
   1955562222, 2024104815, 2227730452, 2361852424,
   2428436474, 2756734187, 3204031479, 3329325298]

/-- SHA-256 working state: eight 32-bit words. -/
structure Hash8 where
  w0 : Nat
  w1 : Nat
  w2 : Nat
  w3 : Nat
  w4 : Nat
  w5 : Nat
  w6 : Nat
  w7 : Nat
deriving DecidableEq

/-- The SHA-256 initial hash value. -/
def shaInit : Hash8 :=
  ⟨1779033703, 3144134277, 1013904242, 2773480762,
   1359893119, 2600822924, 528734635, 1541459225⟩

/-- One SHA-256 compression round for a (constant, schedule word) pair. -/
def shaRound (s : Hash8) (kw : Nat × Nat) : Hash8 :=
  let t1 := (s.w7 + bsig1 s.w4 + shaCh s.w4 s.w5 s.w6 + kw.1 + kw.2) &&& M32
  let t2 := (bsig0 s.w0 + shaMaj s.w0 s.w1 s.w2) &&& M32
  ⟨(t1 + t2) &&& M32, s.w0, s.w1, s.w2, (s.w3 + t1) &&& M32, s.w4, s.w5, s.w6⟩

/-- Group bytes into big-endian 32-bit words (four bytes each). -/
def toWords : List Nat → List Nat
  | b0 :: b1 :: b2 :: b3 :: rest =>
      (b0 * 0x1000000 + b1 * 0x10000 + b2 * 0x100 + b3) :: toWords rest
  | _ => []

/-- Extend the 16 block words to the 64-word message schedule.  The
accumulator is kept most-recent-first, so `w[i-2]` is entry 1, `w[i-7]`
entry 6, `w[i-15]` entry 14 and `w[i-16]` entry 15. -/
def extendSchedule (ws : List Nat) : List Nat :=
  ((List.range 48).foldl
    (fun acc _ =>
      ((acc.getD 15 0 + ssig0 (acc.getD 14 0) + acc.getD 6 0 + ssig1 (acc.getD 1 0)) &&& M32)
        :: acc)
    ws.reverse).reverse

/-- Compress one 64-byte block into the running state. -/
def shaCompress (s : Hash8) (block : List Nat) : Hash8 :=
  let w := extendSchedule (toWords block)
  let t := (shaK.zip w).foldl shaRound s
  ⟨(s.w0 + t.w0) &&& M32, (s.w1 + t.w1) &&& M32, (s.w2 + t.w2) &&& M32,
   (s.w3 + t.w3) &&& M32, (s.w4 + t.w4) &&& M32, (s.w5 + t.w5) &&& M32,
   (s.w6 + t.w6) &&& M32, (s.w7 + t.w7) &&& M32⟩

/-- SHA-256 padding: a 0x80 byte, zeros to 56 mod 64, then the bit length
as eight big-endian bytes. -/
def shaPad (msg : List Nat) : List Nat :=
  let len := msg.length
  let zeros := (119 - len % 64) % 64
  let bits := len * 8
  msg ++ [0x80] ++ List.replicate zeros 0 ++
    [(bits >>> 56) &&& 0xFF, (bits >>> 48) &&& 0xFF, (bits >>> 40) &&& 0xFF,
     (bits >>> 32) &&& 0xFF, (bits >>> 24) &&& 0xFF, (bits >>> 16) &&& 0xFF,
     (bits >>> 8) &&& 0xFF, bits &&& 0xFF]

/-- Fuel-driven 64-byte chunking (structural recursion on the fuel, which
is initialized to the list length and strictly dominates it throughout). -/
def chunks64.go : Nat → List Nat → List (List Nat)
  | _, [] => []
  | 0, _ :: _ => []
  | f + 1, a :: l => ((a :: l).take 64) :: chunks64.go f ((a :: l).drop 64)

/-- Split a byte list into 64-byte chunks. -/
def chunks64 (l : List Nat) : List (List Nat) := chunks64.go l.length l

/-- A 32-bit word as four big-endian bytes. -/
def wordBytes (x : Nat) : List Nat :=
  [(x >>> 24) &&& 0xFF, (x >>> 16) &&& 0xFF, (x >>> 8) &&& 0xFF, x &&& 0xFF]

/-- SHA-256 of a byte string, as the 32 digest bytes — the embedding of
`hashlib.sha256(data).digest()`. -/
def sha256 (msg : List Nat) : List Nat :=
  let s := (chunks64 (shaPad msg)).foldl shaCompress shaInit
  wordBytes s.w0 ++ wordBytes s.w1 ++ wordBytes s.w2 ++ wordBytes s.w3 ++
  wordBytes s.w4 ++ wordBytes s.w5 ++ wordBytes s.w6 ++ wordBytes s.w7

/-! ### `validate_base58check` -/

/-- Structured outcome of `validate_base58check`; the Python method returns
`(bool, Optional[str])` where the message strings are exactly the renderings
of these four cases (src/emoji_codec.py lines 137-171). -/
inductive VResult where
  | invalidChar (c : Char)
  | tooShort (n : Nat)
  | checksumMismatch (expected got : List Nat)
  | valid
deriving DecidableEq

/-- Embedding of `EmojiCodec.validate_base58check`: reject at the first
character outside the alphabet, decode, require at least 5 bytes, then
compare the last 4 bytes with the first 4 bytes of the double SHA-256 of
the rest. -/
def validate_base58check (alphabet : List Char) (address : List Char) : VResult :=
  match address.find? (fun c => !(alphabet.contains c)) with
  | some c => .invalidChar c
  | none =>
    let decoded := base58_decode alphabet address
    if decoded.length < 5 then .tooShort decoded.length
    else
      let payload := decoded.take (decoded.length - 4)
      let checksum := decoded.drop (decoded.length - 4)
      let expected := (sha256 (sha256 payload)).take 4
      if checksum == expected then .valid
      else .checksumMismatch expected checksum

/-! ### Grapheme segmentation (`EmojiCodec._split_emoji`) -/

/-- Variation selectors U+FE0F and U+FE0E, the first absorption loop of
`_split_emoji`. -/
def isVariationSelector (c : Char) : Bool :=
  c.toNat == 0xFE0F || c.toNat == 0xFE0E

/-- Skin-tone modifiers U+1F3FB – U+1F3FF, the second absorption loop. -/
def isSkinToneModifier (c : Char) : Bool :=
  decide (0x1F3FB ≤ c.toNat ∧ c.toNat ≤ 0x1F3FF)

/-- The zero-width joiner U+200D, the third absorption loop. -/
def isZWJ (c : Char) : Bool :=
  c.toNat == 0x200D

/-- The ZWJ loop of `_split_emoji`: while the next character is a joiner,
absorb it together with the immediately following character.  Returns the
absorbed run and the remaining input. -/
def takeZWJ : List Char → List Char × List Char
  | [] => ([], [])
  | [z] => if isZWJ z then ([z], []) else ([], [z])
  | z :: x :: rest2 =>
    if isZWJ z then
      let p := takeZWJ rest2
      (z :: x :: p.1, p.2)
    else ([], z :: x :: rest2)

/-- Fuel-driven segmentation loop; the fuel is initialized to the input
length, which strictly dominates the remaining input at every step. -/
def split_emoji.go : Nat → List Char → List (List Char)
  | _, [] => []
  | 0, _ :: _ => []
  | f + 1, c :: rest =>
    let vs := rest.takeWhile isVariationSelector
    let r1 := rest.dropWhile isVariationSelector
    let st := r1.takeWhile isSkinToneModifier
    let r2 := r1.dropWhile isSkinToneModifier
    let zw := takeZWJ r2
    (c :: (vs ++ st ++ zw.1)) :: split_emoji.go f zw.2

/-- Embedding of `EmojiCodec._split_emoji` (src/emoji_codec.py lines
100-135): greedy forward scan emitting one cluster per base character,
absorbing trailing variation selectors, then skin-tone modifiers, then
joiner-plus-character pairs. -/
def split_emoji (s : List Char) : List (List Char) :=
  split_emoji.go s.length s

/-- A character that starts a fresh cluster: not a variation selector, not
a skin-tone modifier, not a joiner. -/
def isBaseChar (c : Char) : Bool :=
  !(isVariationSelector c) && !(isSkinToneModifier c) && !(isZWJ c)

/-- Glyph shapes for which the greedy segmenter recovers the glyph from a
concatenation: a lone base character, optionally followed by one variation
selector.  The repository's candidate pools are filtered to exactly such
glyphs (`filter_problematic_emoji` drops skin-tone variants, ZWJ sequences
and keycaps). -/
def wfGlyph : List Char → Bool
  | [c] => isBaseChar c
  | [c, v] => isBaseChar c && isVariationSelector v
  | _ => false

/-! ### The codec proper (`EmojiCodec.encode` / `decode` / `scan`) -/

/-- First-match association-list lookup: the embedding of the Python dict
reads `char in self.mapping` / `self.mapping[char]['emoji']` (dict keys are
unique, so first-match agrees with the dict). -/
def mlookup : List (Char × List Char) → Char → Option (List Char)
  | [], _ => none
  | p :: rest, c => if p.1 == c then some p.2 else mlookup rest c

/-- Reverse lookup as built by `EmojiCodec.__init__` (lines 36-40): the
loop `self.reverse_mapping[emoji] = base58_char` lets the last forward
entry with a given glyph win. -/
def revLookup (m : List (Char × List Char)) (g : List Char) : Option Char :=
  ((m.filter (fun p => p.2 == g)).getLast?).map Prod.fst

/-- The fixed placeholder glyph appended for unmapped input characters
(U+2753, the Python literal in `encode`). -/
def placeholderGlyph : Char := Char.ofNat 0x2753

/-- The sentinel symbol appended for unmapped clusters in `decode`. -/
def unknownSymbol : Char := '?'

/-- The character loop of `encode`: returns the accumulated glyph string
and the list of unknown characters. -/
def encode.go (m : List (Char × List Char)) : List Char → List Char × List Char
  | [] => ([], [])
  | c :: cs =>
    let rest := encode.go m cs
    match mlookup m c with
    | some g => (g ++ rest.1, rest.2)
    | none => (placeholderGlyph :: rest.1, c :: rest.2)

/-- Embedding of `EmojiCodec.encode` (lines 46-69): per-character glyph
substitution with a placeholder fallback; `success` is `True` exactly when
no unknown character was met. -/
def encode (m : List (Char × List Char)) (address : List Char) : List Char × Bool :=
  ((encode.go m address).1, (encode.go m address).2.isEmpty)

/-- The cluster loop of `decode`: returns the accumulated symbol string and
the list of unknown clusters. -/
def decode.go (m : List (Char × List Char)) : List (List Char) → List Char × List (List Char)
  | [] => ([], [])
  | g :: gs =>
    let rest := decode.go m gs
    match revLookup m g with
    | some c => (c :: rest.1, rest.2)
    | none => (unknownSymbol :: rest.1, g :: rest.2)

/-- Embedding of `EmojiCodec.decode` (lines 71-98): segment with
`_split_emoji`, then substitute each cluster through the reverse mapping,
with a `'?'` fallback; `success` is `True` exactly when every cluster was
mapped. -/
def decode (m : List (Char × List Char)) (s : List Char) : List Char × Bool :=
  ((decode.go m (split_emoji s)).1, (decode.go m (split_emoji s)).2.isEmpty)

/-- A loaded codec instance: the `base58_alphabet` and `mapping` fields an
`EmojiCodec.__init__` reads from a mapping file. -/
structure Codec where
  base58_alphabet : List Char
  mapping : List (Char × List Char)

/-- `validate_base58check` as a method: it reads only the loaded
alphabet. -/
def Codec.validate (k : Codec) (address : List Char) : VResult :=
  validate_base58check k.base58_alphabet address

/-- The messages `scan` can append to its `errors` list (the Python
strings render exactly these cases). -/
inductive ScanMsg where
  | decodeFailed
  | checksumFailed (r : VResult)
  | checksumOk
deriving DecidableEq

/-- The result dictionary of `EmojiCodec.scan`. -/
structure ScanResult where
  base58 : List Char
  decode_success : Bool
  checksum_valid : Bool
  errors : List ScanMsg
deriving DecidableEq

/-- Embedding of `EmojiCodec.scan` (lines 189-229): decode, return early
(with `checksum_valid` still `False`) if decoding did not fully succeed,
otherwise validate when asked and report both statuses. -/
def scan (k : Codec) (s : List Char) (validate : Bool) : ScanResult :=
  let d := decode k.mapping s
  if !d.2 then ⟨d.1, false, false, [.decodeFailed]⟩
  else if validate then
    let r := validate_base58check k.base58_alphabet d.1
    if r == .valid then ⟨d.1, true, true, [.checksumOk]⟩
    else ⟨d.1, true, false, [.checksumFailed r]⟩
  else ⟨d.1, true, false, []⟩

/-! ### Visual similarity (`EmojiSimilarityAnalyzer`) -/

/-- The four perceptual hashes stored per emoji by
`compute_perceptual_hashes`, each a 64-bit fingerprint modelled as its bit
list. -/
structure EmojiHashes where
  dhash : List Bool
  phash : List Bool
  ahash : List Bool
  whash : List Bool
deriving DecidableEq

/-- `imagehash` hash subtraction: the number of positions where the two
bit arrays differ. -/
def hammingDistance (h1 h2 : List Bool) : Nat :=
  (h1.zip h2).countP (fun p => p.1 != p.2)

/-- Embedding of `calculate_hash_similarity` (src/visual_similarity.py
lines 236-247): Hamming distance normalized by the 64-bit hash size. -/
def calculate_hash_similarity (h1 h2 : List Bool) : Rat :=
  (hammingDistance h1 h2 : Rat) / 64

/-- The composite score of `find_confusable_pairs`: the mean of the four
per-family similarities (`np.mean` over the four values). -/
def pairSimilarity (a b : EmojiHashes) : Rat :=
  (calculate_hash_similarity a.dhash b.dhash + calculate_hash_similarity a.phash b.phash +
   calculate_hash_similarity a.ahash b.ahash + calculate_hash_similarity a.whash b.whash) / 4

/-- The double loop `for i, e1 in enumerate(l): for e2 in l[i+1:]`: all
strictly-later pairs, in iteration order. -/
def allPairs {α : Type} : List α → List (α × α)
  | [] => []
  | x :: xs => xs.map (fun y => (x, y)) ++ allPairs xs

/-- Embedding of `find_confusable_pairs` (lines 249-295): score every
unordered pair of pool entries, keep those with composite score strictly
below the threshold, and sort ascending by score (Python's stable
`list.sort(key=lambda x: x[2])`). -/
def find_confusable_pairs (pool : List (String × EmojiHashes)) (threshold : Rat) :
    List (String × String × Rat) :=
  let pairs := (allPairs pool).filterMap (fun p =>
    let s := pairSimilarity p.1.2 p.2.2
    if s < threshold then some (p.1.1, p.2.1, s) else none)
  pairs.mergeSort (fun a b => decide (a.2.2 ≤ b.2.2))

/-! ### Mapping builders (`create_optimal_mapping`,
`create_steganographic_mapping`) -/

/-- A candidate pool entry of `create_optimal_mapping`
(src/base58_frequency.py): glyph, display name, distinctiveness score. -/
structure Candidate where
  emoji : String
  name : String
  distinctiveness : Rat
deriving DecidableEq

/-- A forward-mapping entry written by `create_optimal_mapping`. -/
structure MapEntry where
  emoji : String
  name : String
  distinctiveness : Rat
  priority : Nat
deriving DecidableEq

/-- Embedding of the assignment loop of `create_optimal_mapping`
(src/base58_frequency.py lines 149-161): the i-th of the first 58
prioritized symbols receives the i-th candidate, with 1-based priority,
and symbols beyond the candidate pool are skipped. -/
def create_optimal_mapping (priority_mapping : List Char) (candidates : List Candidate) :
    List (Char × MapEntry) :=
  (priority_mapping.take 58).enum.filterMap (fun ic =>
    (candidates[ic.1]?).map (fun cand =>
      (ic.2, ⟨cand.emoji, cand.name, cand.distinctiveness, ic.1 + 1⟩)))

/-- A candidate pool entry of `create_steganographic_mapping`
(src/emoji_frequency.py): the usage tier may be absent, read with
`.get('usage_tier', 7)`. -/
structure StegoCandidate where
  emoji : String
  name : String
  usage_tier : Option Nat
deriving DecidableEq

/-- A forward-mapping entry written by `create_steganographic_mapping`. -/
structure StegoEntry where
  emoji : String
  name : String
  usage_tier : Nat
  priority : Nat
deriving DecidableEq

/-- Embedding of the assignment loop of `create_steganographic_mapping`
(src/emoji_frequency.py lines 216-227): same shape as
`create_optimal_mapping`, with the tier defaulting to 7. -/
def create_steganographic_mapping (priority_order : List Char)
    (filtered_common : List StegoCandidate) : List (Char × StegoEntry) :=
  (priority_order.take 58).enum.filterMap (fun ic =>
    (filtered_common[ic.1]?).map (fun cand =>
      (ic.2, ⟨cand.emoji, cand.name, cand.usage_tier.getD 7, ic.1 + 1⟩)))

/-! ### Spec-side notions used to state the claims -/

/-- Big-endian byte-string value, the spec's reading of a byte string as an
integer. -/
def bytesToNatBE (l : List Nat) : Nat :=
  l.foldl (fun acc b => acc * 256 + b) 0

/-- The spec's "minimal big-endian byte representation" of `n`: the bytes
evaluate to `n`, are genuine bytes, and carry no leading zero. -/
def IsMinimalBE (l : List Nat) (n : Nat) : Prop :=
  bytesToNatBE l = n ∧ (∀ b ∈ l, b < 256) ∧ (l = [] ∨ l.head? ≠ some 0)

/-- Recognizer for the `ChecksumMismatch` outcome. -/
def isChecksumMismatch : VResult → Bool
  | .checksumMismatch _ _ => true
  | _ => false

/-- The glyph-or-placeholder a single address character contributes to the
output of `encode`. -/
def encodedGlyph (m : List (Char × List Char)) (c : Char) : List Char :=
  match mlookup m c with
  | some g => g
  | none => [placeholderGlyph]

/-- The example address of the spec (Example 1). -/
def example_address : List Char := "1A1zP1eP5QGefi2DMPTfTL5SLmv7DivfNa".toList

/-- The 21 decoded payload bytes of the example address (version byte 0x00
plus the 20-byte hash160). -/
def examplePayload : List Nat :=
  [0x00, 0x62, 0xe9, 0x07, 0xb1, 0x5c, 0xbf, 0x27, 0xd5, 0x42, 0x53,
   0x99, 0xeb, 0xf6, 0xf0, 0xfb, 0x50, 0xeb, 0xb8, 0x8f, 0x18]

/-- The 4 trailing checksum bytes of the example address. -/
def exampleChecksum : List Nat := [0xc2, 0x9b, 0x7d, 0x93]

/-- A small concrete forward mapping used to witness the codec claims:
the symbol '1' gets a one-codepoint glyph, the symbol 'A' a glyph with a
variation selector. -/
def sample_mapping : List (Char × List Char) :=
  [('1', [Char.ofNat 0x1F431]), ('A', [Char.ofNat 0x2602, Char.ofNat 0xFE0F])]

/-- A second concrete forward mapping with the same symbols sent to other
glyphs, used to witness mapping-independence. -/
def sample_mapping2 : List (Char × List Char) :=
  [('1', [Char.ofNat 0x1F680]), ('A', [Char.ofNat 0x1F984])]

/-- A synthetic 64-bit fingerprint whose first `k` bits are set, giving
pairwise Hamming distances `|k - k'|`. -/
def sampleHash (k : Nat) : EmojiHashes :=
  let bits := List.replicate k true ++ List.replicate (64 - k) false
  ⟨bits, bits, bits, bits⟩

/-- A concrete three-glyph pool realizing the shape of the spec's Example
4: composite scores (A,B) = 1/8, (A,C) = 5/8, (B,C) = 1/2. -/
def sample_pool : List (String × EmojiHashes) :=
  [("A", sampleHash 0), ("B", sampleHash 8), ("C", sampleHash 40)]

/-- A concrete candidate pool (two entries) for the mapping-builder
witness, shorter than the prioritized symbol list. -/
def sample_candidates : List Candidate :=
  [⟨"X", "x glyph", 1/10⟩, ⟨"Y", "y glyph", 1/5⟩]

/-- A concrete steganographic candidate pool for the mapping-builder
witness, one entry without a usage tier. -/
def sample_stego_candidates : List StegoCandidate :=
  [⟨"X", "x glyph", some 2⟩, ⟨"Y", "y glyph", none⟩]

/-- The Bool predicate recognizing the unordered pair of `a` and `b`. -/
def isPairOf {α : Type} [DecidableEq α] (a b : α) (q : α × α) : Bool :=
  decide (q = (a, b) ∨ q = (b, a))

/-! ## Lemmas about the byte conversion -/

theorem natToBytesBE_go_congr (f1 : Nat) : ∀ (f2 n : Nat), n ≤ f1 → n ≤ f2 →
    natToBytesBE.go f1 n = natToBytesBE.go f2 n := by
  induction f1 with
  | zero =>
    intro f2 n h1 _
    have hn : n = 0 := Nat.le_zero.mp h1
    subst hn
    cases f2 <;> rfl
  | succ a ih =>
    intro f2 n h1 h2
    match n, f2 with
    | 0, f2 => cases f2 <;> rfl
    | m + 1, 0 => exact absurd h2 (by omega)
    | m + 1, b + 1 =>
      show natToBytesBE.go a ((m + 1) / 256) ++ _ = natToBytesBE.go b ((m + 1) / 256) ++ _
      have hd : (m + 1) / 256 < m + 1 := Nat.div_lt_self (Nat.succ_pos m) (by decide)
      rw [ih b ((m + 1) / 256) (by omega) (by omega)]

theorem natToBytesBE_zero : natToBytesBE 0 = [] := rfl

theorem natToBytesBE_pos (n : Nat) (h : 0 < n) :
    natToBytesBE n = natToBytesBE (n / 256) ++ [n % 256] := by
  obtain ⟨m, rfl⟩ : ∃ m, n = m + 1 := ⟨n - 1, by omega⟩
  show natToBytesBE.go m ((m + 1) / 256) ++ _ = _
  have hd : (m + 1) / 256 < m + 1 := Nat.div_lt_self (Nat.succ_pos m) (by decide)
  rw [natToBytesBE, natToBytesBE_go_congr m ((m + 1) / 256) ((m + 1) / 256) (by omega) (le_refl _)]

theorem bytesToNatBE_append_one (l : List Nat) (b : Nat) :
    bytesToNatBE (l ++ [b]) = bytesToNatBE l * 256 + b := by
  simp [bytesToNatBE, List.foldl_append]

theorem bytesToNatBE_natToBytesBE (n : Nat) : bytesToNatBE (natToBytesBE n) = n := by
  induction n using Nat.strong_induction_on with
  | _ n ih =>
    rcases Nat.eq_zero_or_pos n with h | h
    · subst h; rfl
    · rw [natToBytesBE_pos n h, bytesToNatBE_append_one,
        ih (n / 256) (Nat.div_lt_self h (by decide))]
      omega

theorem natToBytesBE_ne_nil (n : Nat) (h : 0 < n) : natToBytesBE n ≠ [] := by
  rw [natToBytesBE_pos n h]
  simp

theorem natToBytesBE_head_ne_zero (n : Nat) :
    natToBytesBE n = [] ∨ (natToBytesBE n).head? ≠ some 0 := by
  induction n using Nat.strong_induction_on with
  | _ n ih =>
    rcases Nat.eq_zero_or_pos n with h | h
    · exact Or.inl (by subst h; rfl)
    · right
      rw [natToBytesBE_pos n h]
      rcases Nat.lt_or_ge n 256 with h2 | h2
      · have hz : n / 256 = 0 := Nat.div_eq_of_lt h2
        rw [hz, natToBytesBE_zero]
        have : n % 256 = n := Nat.mod_eq_of_lt h2
        simp [this]
        omega
      · have hpos : 0 < n / 256 := Nat.div_pos h2 (by decide)
        have hne := natToBytesBE_ne_nil _ hpos
        rcases ih (n / 256) (Nat.div_lt_self h (by decide)) with h3 | h3
        · exact absurd h3 hne
        · rw [List.head?_append]
          cases hh : (natToBytesBE (n / 256)).head? with
          | none => exact absurd (List.head?_eq_none_iff.mp hh) hne
          | some b =>
            simp only [Option.or_some]
            intro hb
            exact h3 (by rw [hh, hb])

theorem natToBytesBE_lt_256 (n : Nat) : ∀ b ∈ natToBytesBE n, b < 256 := by
  induction n using Nat.strong_induction_on with
  | _ n ih =>
    rcases Nat.eq_zero_or_pos n with h | h
    · subst h; intro b hb; simp [natToBytesBE_zero] at hb
    · rw [natToBytesBE_pos n h]
      intro b hb
      rcases List.mem_append.mp hb with h1 | h1
      · exact ih _ (Nat.div_lt_self h (by decide)) b h1
      · have : b = n % 256 := by simpa using h1
        subst this
        exact Nat.mod_lt _ (by decide)

/-- C3. For every string over the 58-symbol alphabet, `_base58_decode`
returns one 0x00 byte per leading '1' followed by the minimal big-endian
byte representation of the MSB-first radix-58 accumulated value. -/
theorem claim_C3_base58_decode_minimal (address : List Char)
    (h : ∀ c ∈ address, c ∈ base58_alphabet) :
    ∃ t, base58_decode base58_alphabet address =
        List.replicate (leadingOnes address) 0 ++ t ∧
      IsMinimalBE t (base58_value base58_alphabet address) :=
  ⟨natToBytesBE (base58_value base58_alphabet address), rfl,
    bytesToNatBE_natToBytesBE _, natToBytesBE_lt_256 _, natToBytesBE_head_ne_zero _⟩

/-- Witness for C3 at the spec's example address. -/
theorem claim_C3_base58_decode_minimal_witness :
    ∃ t, base58_decode base58_alphabet example_address =
        List.replicate (leadingOnes example_address) 0 ++ t ∧
      IsMinimalBE t (base58_value base58_alphabet example_address) :=
  claim_C3_base58_decode_minimal example_address (by decide)

/-! ## Lemmas about `validate_base58check` -/

theorem find?_invalid_eq_none (alphabet address : List Char)
    (h : ∀ c ∈ address, c ∈ alphabet) :
    address.find? (fun c => !(alphabet.contains c)) = none := by
  rw [List.find?_eq_none]
  intro x hx
  simp [List.contains, List.elem_eq_mem, h x hx]

theorem validate_of_valid_chars (alphabet address : List Char)
    (h : ∀ c ∈ address, c ∈ alphabet) :
    validate_base58check alphabet address =
      (if (base58_decode alphabet address).length < 5
       then .tooShort (base58_decode alphabet address).length
       else
        if (base58_decode alphabet address).drop ((base58_decode alphabet address).length - 4) ==
            (sha256 (sha256 ((base58_decode alphabet address).take
              ((base58_decode alphabet address).length - 4)))).take 4
        then .valid
        else .checksumMismatch
          ((sha256 (sha256 ((base58_decode alphabet address).take
            ((base58_decode alphabet address).length - 4)))).take 4)
          ((base58_decode alphabet address).drop ((base58_decode alphabet address).length - 4))) := by
  unfold validate_base58check
  rw [find?_invalid_eq_none alphabet address h]

theorem validate_invalidChar_of_bad (alphabet address : List Char)
    (h : ∃ c ∈ address, c ∉ alphabet) :
    ∃ c, c ∈ address ∧ c ∉ alphabet ∧
      validate_base58check alphabet address = .invalidChar c := by
  cases hfind : address.find? (fun c => !(alphabet.contains c)) with
  | none =>
    exfalso
    obtain ⟨c, hc, hcn⟩ := h
    have := List.find?_eq_none.mp hfind c hc
    simp [List.contains, List.elem_eq_mem, hcn] at this
  | some c0 =>
    refine ⟨c0, List.mem_of_find?_eq_some hfind, ?_, ?_⟩
    · have := List.find?_some hfind
      simpa [List.contains, List.elem_eq_mem] using this
    · unfold validate_base58check
      rw [hfind]

/-- C4. `validate_base58check` is total and returns a structured result
identifying the precise failing reason: an invalid-symbol error when some
character is outside the 58-symbol alphabet (in particular for inputs
containing '0', 'O', 'I' or 'l'), a too-short error when the decoded byte
string has fewer than 5 bytes, and otherwise valid or checksum-mismatch
according to the 4-byte double-SHA-256 comparison. -/
theorem claim_C4_validate_structured (alphabet address : List Char) :
    ((∃ c ∈ address, c ∉ alphabet) →
      ∃ c, c ∈ address ∧ c ∉ alphabet ∧
        validate_base58check alphabet address = .invalidChar c)
    ∧ ((∀ c ∈ address, c ∈ alphabet) →
        ((base58_decode alphabet address).length < 5 →
          validate_base58check alphabet address =
            .tooShort (base58_decode alphabet address).length)
        ∧ (5 ≤ (base58_decode alphabet address).length →
            ((base58_decode alphabet address).drop
                ((base58_decode alphabet address).length - 4) =
              (sha256 (sha256 ((base58_decode alphabet address).take
                ((base58_decode alphabet address).length - 4)))).take 4 →
              validate_base58check alphabet address = .valid)
            ∧ ((base58_decode alphabet address).drop
                ((base58_decode alphabet address).length - 4) ≠
              (sha256 (sha256 ((base58_decode alphabet address).take
                ((base58_decode alphabet address).length - 4)))).take 4 →
              validate_base58check alphabet address =
                .checksumMismatch
                  ((sha256 (sha256 ((base58_decode alphabet address).take
                    ((base58_decode alphabet address).length - 4)))).take 4)
                  ((base58_decode alphabet address).drop
                    ((base58_decode alphabet address).length - 4)))))
    ∧ (∀ address2 : List Char,
        ('0' ∈ address2 ∨ 'O' ∈ address2 ∨ 'I' ∈ address2 ∨ 'l' ∈ address2) →
        ∃ c, c ∉ base58_alphabet ∧
          validate_base58check base58_alphabet address2 = .invalidChar c) := by
  refine ⟨validate_invalidChar_of_bad alphabet address, ?_, ?_⟩
  · intro h
    rw [validate_of_valid_chars alphabet address h]
    constructor
    · intro hlt
      rw [if_pos hlt]
    · intro hge
      rw [if_neg (by omega)]
      constructor
      · intro heq
        rw [if_pos (beq_iff_eq.mpr heq)]
      · intro hne
        rw [if_neg (by simp [hne])]
  · intro address2 h2
    have hbad : ∃ c ∈ address2, c ∉ base58_alphabet := by
      rcases h2 with h | h | h | h
      · exact ⟨'0', h, by decide⟩
      · exact ⟨'O', h, by decide⟩
      · exact ⟨'I', h, by decide⟩
      · exact ⟨'l', h, by decide⟩
    obtain ⟨c, _, hcn, hv⟩ := validate_invalidChar_of_bad base58_alphabet address2 hbad
    exact ⟨c, hcn, hv⟩

/-- Witness for C4: the symbol '0' is rejected as an invalid symbol, and
the one-symbol address "1" decodes to a single byte and is rejected as too
short. -/
theorem claim_C4_validate_structured_witness :
    (∃ c, c ∈ ['0'] ∧ c ∉ base58_alphabet ∧
      validate_base58check base58_alphabet ['0'] = .invalidChar c)
    ∧ validate_base58check base58_alphabet ['1'] =
        .tooShort (base58_decode base58_alphabet ['1']).length :=
  ⟨(claim_C4_validate_structured base58_alphabet ['0']).1 ⟨'0', by decide, by decide⟩,
   ((claim_C4_validate_structured base58_alphabet ['1']).2.1
      (by decide)).1 (by decide)⟩


/-! ## Lemmas about the grapheme segmenter -/

theorem isBaseChar_spec (c : Char) (h : isBaseChar c = true) :
    isVariationSelector c = false ∧ isSkinToneModifier c = false ∧ isZWJ c = false := by
  unfold isBaseChar at h
  rcases hv : isVariationSelector c <;> rcases hs : isSkinToneModifier c <;>
    rcases hz : isZWJ c <;> simp [hv, hs, hz] at h ⊢

theorem takeZWJ_snd_length : ∀ l : List Char, (takeZWJ l).2.length ≤ l.length
  | [] => le_refl _
  | [z] => by
    simp only [takeZWJ]
    split <;> simp
  | z :: x :: rest2 => by
    simp only [takeZWJ]
    split
    · have := takeZWJ_snd_length rest2
      simp only [List.length_cons]
      omega
    · simp

theorem takeZWJ_not_zwj (l : List Char)
    (h : l = [] ∨ ∃ c t, l = c :: t ∧ isZWJ c = false) :
    takeZWJ l = ([], l) := by
  rcases h with rfl | ⟨c, t, rfl, hc⟩
  · rfl
  · match t with
    | [] => simp [takeZWJ, hc]
    | x :: t2 => simp [takeZWJ, hc]

theorem split_emoji_go_congr (f1 : Nat) : ∀ (f2 : Nat) (s : List Char),
    s.length ≤ f1 → s.length ≤ f2 →
    split_emoji.go f1 s = split_emoji.go f2 s := by
  induction f1 with
  | zero =>
    intro f2 s h1 _
    have : s = [] := List.length_eq_zero.mp (Nat.le_zero.mp h1)
    subst this
    cases f2 <;> rfl
  | succ a ih =>
    intro f2 s h1 h2
    match s, f2 with
    | [], f2 => cases f2 <;> rfl
    | c :: rest, 0 => exact absurd h2 (by simp)
    | c :: rest, b + 1 =>
      simp only [split_emoji.go]
      have hr1 : (rest.dropWhile isVariationSelector).length ≤ rest.length :=
        (List.dropWhile_sublist isVariationSelector).length_le
      have hr2 : ((rest.dropWhile isVariationSelector).dropWhile isSkinToneModifier).length ≤
          (rest.dropWhile isVariationSelector).length :=
        (List.dropWhile_sublist isSkinToneModifier).length_le
      have hz := takeZWJ_snd_length ((rest.dropWhile isVariationSelector).dropWhile isSkinToneModifier)
      have hlen : (takeZWJ ((rest.dropWhile isVariationSelector).dropWhile
          isSkinToneModifier)).2.length ≤ rest.length := by omega
      rw [ih b _ (by simp at h1; omega) (by simp at h2; omega)]

/-- Heads that the greedy scanner does not absorb: empty input or input
starting with a fresh base character. -/
def FreshStart (t : List Char) : Prop :=
  t = [] ∨ ∃ c t2, t = c :: t2 ∧ isBaseChar c = true

theorem freshStart_no_absorb (t : List Char) (h : FreshStart t) :
    t.takeWhile isVariationSelector = [] ∧ t.dropWhile isVariationSelector = t ∧
    t.takeWhile isSkinToneModifier = [] ∧ t.dropWhile isSkinToneModifier = t ∧
    takeZWJ t = ([], t) := by
  rcases h with rfl | ⟨c, t2, rfl, hc⟩
  · exact ⟨rfl, rfl, rfl, rfl, rfl⟩
  · obtain ⟨hvs, hst, hzw⟩ := isBaseChar_spec c hc
    refine ⟨?_, ?_, ?_, ?_, ?_⟩
    · simp [List.takeWhile_cons, hvs]
    · simp [List.dropWhile_cons, hvs]
    · simp [List.takeWhile_cons, hst]
    · simp [List.dropWhile_cons, hst]
    · exact takeZWJ_not_zwj _ (Or.inr ⟨c, t2, rfl, hzw⟩)

theorem split_emoji_nil : split_emoji [] = [] := rfl

theorem split_emoji_wf_append (g t : List Char) (hg : wfGlyph g = true)
    (ht : FreshStart t) :
    split_emoji (g ++ t) = g :: split_emoji t := by
  obtain ⟨hvs_t, hdvs_t, hst_t, hdst_t, hzw_t⟩ := freshStart_no_absorb t ht
  match g, hg with
  | [c], hg =>
    have hc : isBaseChar c = true := by simpa [wfGlyph] using hg
    show split_emoji.go (c :: t).length (c :: t) = [c] :: split_emoji t
    simp only [List.length_cons, split_emoji.go, hvs_t, hdvs_t, hst_t, hdst_t, hzw_t]
    rw [split_emoji_go_congr t.length t.length t (le_refl _) (le_refl _)]
    rfl
  | [c, v], hg =>
    have hc : isBaseChar c = true ∧ isVariationSelector v = true := by
      simpa [wfGlyph, Bool.and_eq_true] using hg
    show split_emoji.go (c :: v :: t).length (c :: v :: t) = [c, v] :: split_emoji t
    simp only [List.length_cons, split_emoji.go, List.takeWhile_cons, List.dropWhile_cons,
      hc.2, if_pos, hvs_t, hdvs_t, hst_t, hdst_t, hzw_t]
    rw [split_emoji_go_congr (t.length + 1) t.length t (by omega) (le_refl _)]
    rfl

theorem wfGlyph_freshStart (g : List Char) (hg : wfGlyph g = true) :
    ∃ c t2, g = c :: t2 ∧ isBaseChar c = true := by
  match g, hg with
  | [c], hg => exact ⟨c, [], rfl, by simpa [wfGlyph] using hg⟩
  | [c, v], hg =>
    exact ⟨c, [v], rfl, by
      have := (Bool.and_eq_true _ _).mp (by simpa [wfGlyph] using hg)
      exact this.1⟩

theorem split_emoji_join (gs : List (List Char))
    (h : ∀ g ∈ gs, wfGlyph g = true) :
    split_emoji gs.flatten = gs := by
  induction gs with
  | nil => rfl
  | cons g gs ih =>
    have hg : wfGlyph g = true := h g (by simp)
    have hrest : ∀ g2 ∈ gs, wfGlyph g2 = true := fun g2 h2 => h g2 (by simp [h2])
    have hfresh : FreshStart gs.flatten := by
      cases gs with
      | nil => exact Or.inl rfl
      | cons g2 gs2 =>
        obtain ⟨c, t2, heq, hc⟩ := wfGlyph_freshStart g2 (hrest g2 (by simp))
        exact Or.inr ⟨c, t2 ++ gs2.flatten, by simp [heq], hc⟩
    rw [List.flatten_cons, split_emoji_wf_append g gs.flatten hg hfresh, ih hrest]

/-! ## Lemmas about `encode`, the reverse mapping and `decode` -/

theorem mlookup_mem (m : List (Char × List Char)) (c : Char) (g : List Char)
    (h : mlookup m c = some g) : (c, g) ∈ m := by
  induction m with
  | nil => exact absurd h (by simp [mlookup])
  | cons p rest ih =>
    by_cases hp : p.1 == c
    · have hsome : some p.2 = some g := by simpa [mlookup, hp] using h
      have hg : p.2 = g := by injection hsome
      have hc : p.1 = c := by simpa using hp
      have hpe : p = (c, g) := Prod.ext hc hg
      rw [← hpe]
      exact List.mem_cons_self p rest
    · have h2 : mlookup rest c = some g := by simpa [mlookup, hp] using h
      exact List.mem_cons_of_mem p (ih h2)

theorem filter_snd_eq_singleton (m : List (Char × List Char)) (c : Char) (g : List Char)
    (hinj : (m.map Prod.snd).Nodup) (hmem : (c, g) ∈ m) :
    m.filter (fun p => p.2 == g) = [(c, g)] := by
  induction m with
  | nil => exact absurd hmem (by simp)
  | cons p rest ih =>
    have hnd : p.2 ∉ rest.map Prod.snd ∧ (rest.map Prod.snd).Nodup := by
      simpa using hinj
    rcases List.mem_cons.mp hmem with heq | hmem2
    · subst heq
      have hfilter : rest.filter (fun q => q.2 == g) = [] := by
        rw [List.filter_eq_nil_iff]
        intro q hq hq2
        exact hnd.1 (List.mem_map.mpr ⟨q, hq, by simpa using hq2⟩)
      simp [List.filter_cons, hfilter]
    · have hne : (p.2 == g) = false := by
        rw [beq_eq_false_iff_ne]
        intro hpe
        exact hnd.1 (by
          rw [hpe]
          exact List.mem_map.mpr ⟨(c, g), hmem2, rfl⟩)
      simp [List.filter_cons, hne]
      exact ih hnd.2 hmem2

theorem revLookup_of_mem (m : List (Char × List Char)) (c : Char) (g : List Char)
    (hinj : (m.map Prod.snd).Nodup) (hmem : (c, g) ∈ m) :
    revLookup m g = some c := by
  unfold revLookup
  rw [filter_snd_eq_singleton m c g hinj hmem]
  rfl

theorem encode_go_spec (m : List (Char × List Char)) : ∀ address : List Char,
    (encode.go m address).1 = (address.map (encodedGlyph m)).flatten ∧
    (encode.go m address).2 = address.filter (fun c => (mlookup m c).isNone) := by
  intro address
  induction address with
  | nil => exact ⟨rfl, rfl⟩
  | cons c cs ih =>
    simp only [encode.go, List.map_cons, List.flatten_cons, List.filter_cons]
    cases hl : mlookup m c with
    | some g =>
      simp only [hl, encodedGlyph, Option.isNone_some]
      exact ⟨by rw [ih.1], by simpa using ih.2⟩
    | none =>
      simp only [hl, encodedGlyph, Option.isNone_none]
      exact ⟨by rw [ih.1]; rfl, by simpa using ih.2⟩

theorem encodedGlyph_wf (m : List (Char × List Char))
    (hwf : ∀ p ∈ m, wfGlyph p.2 = true) (c : Char) :
    wfGlyph (encodedGlyph m c) = true := by
  unfold encodedGlyph
  cases hl : mlookup m c with
  | some g => exact hwf (c, g) (mlookup_mem m c g hl)
  | none => decide

theorem encode_segments (m : List (Char × List Char)) (address : List Char)
    (hwf : ∀ p ∈ m, wfGlyph p.2 = true) :
    split_emoji (encode m address).1 = address.map (encodedGlyph m) := by
  show split_emoji (encode.go m address).1 = _
  rw [(encode_go_spec m address).1]
  exact split_emoji_join _ (by
    intro g hg
    obtain ⟨c, _, rfl⟩ := List.mem_map.mp hg
    exact encodedGlyph_wf m hwf c)

theorem encode_success_iff (m : List (Char × List Char)) (address : List Char) :
    (encode m address).2 = true ↔ ∀ c ∈ address, (mlookup m c).isSome = true := by
  show (encode.go m address).2.isEmpty = true ↔ _
  rw [(encode_go_spec m address).2]
  simp only [List.isEmpty_eq_true, List.filter_eq_nil_iff]
  constructor
  · intro h c hc
    have h2 := h c hc
    cases hl : mlookup m c with
    | some g => rfl
    | none => exact absurd (by simp [hl]) h2
  · intro h c hc
    have h2 := h c hc
    cases hl : mlookup m c with
    | some g => simp [hl]
    | none => rw [hl] at h2; exact absurd h2 (by simp)

/-- C6. `encode` never fails: its output segments into exactly one
grapheme cluster per input character — the mapped glyph for mapped
characters and the fixed placeholder glyph otherwise — and its success
flag is true exactly when every input character is mapped.  (The glyph
well-formedness hypothesis reflects the repository's candidate filtering:
`filter_problematic_emoji` keeps only glyphs the greedy segmenter treats
as single clusters.) -/
theorem claim_C6_encode_total (m : List (Char × List Char)) (address : List Char)
    (hwf : ∀ p ∈ m, wfGlyph p.2 = true) :
    split_emoji (encode m address).1 = address.map (encodedGlyph m)
    ∧ (split_emoji (encode m address).1).length = address.length
    ∧ ((encode m address).2 = true ↔ ∀ c ∈ address, (mlookup m c).isSome = true) :=
  ⟨encode_segments m address hwf,
   by rw [encode_segments m address hwf]; simp,
   encode_success_iff m address⟩

/-- Witness for C6 at a concrete mapping and address containing both a
mapped and an unmapped character. -/
theorem claim_C6_encode_total_witness :
    split_emoji (encode sample_mapping ['1', 'z']).1 =
      ['1', 'z'].map (encodedGlyph sample_mapping)
    ∧ (split_emoji (encode sample_mapping ['1', 'z']).1).length = (['1', 'z'] : List Char).length
    ∧ ((encode sample_mapping ['1', 'z']).2 = true ↔
        ∀ c ∈ (['1', 'z'] : List Char), (mlookup sample_mapping c).isSome = true) :=
  claim_C6_encode_total sample_mapping ['1', 'z'] (by decide)

theorem decode_go_all_mapped (m : List (Char × List Char))
    (hinj : (m.map Prod.snd).Nodup) : ∀ address : List Char,
    (∀ c ∈ address, (mlookup m c).isSome = true) →
    decode.go m (address.map (encodedGlyph m)) = (address, []) := by
  intro address
  induction address with
  | nil => intro _; rfl
  | cons c cs ih =>
    intro hall
    have hc := hall c (by simp)
    cases hl : mlookup m c with
    | none => rw [hl] at hc; exact absurd hc (by simp)
    | some g =>
      have hrev : revLookup m g = some c :=
        revLookup_of_mem m c g hinj (mlookup_mem m c g hl)
      simp only [List.map_cons, decode.go, encodedGlyph, hl, hrev]
      rw [ih (fun c2 h2 => hall c2 (by simp [h2]))]

/-- C1. Round-trip: for every address whose characters are all mapped,
decoding the encoding returns the address with success.  (Hypotheses:
the loaded bijection maps symbols to well-formed glyphs — the shape
guaranteed by the candidate filtering — and no two symbols share a glyph,
the persisted-format contract.) -/
theorem claim_C1_roundtrip (m : List (Char × List Char)) (address : List Char)
    (hwf : ∀ p ∈ m, wfGlyph p.2 = true) (hinj : (m.map Prod.snd).Nodup)
    (hall : ∀ c ∈ address, (mlookup m c).isSome = true) :
    decode m (encode m address).1 = (address, true) := by
  unfold decode
  rw [encode_segments m address hwf, decode_go_all_mapped m hinj address hall]
  rfl

/-- Witness for C1 at a concrete mapping and address. -/
theorem claim_C1_roundtrip_witness :
    decode sample_mapping (encode sample_mapping ['1', 'A', '1']).1 = (['1', 'A', '1'], true) :=
  claim_C1_roundtrip sample_mapping ['1', 'A', '1'] (by decide) (by decide) (by decide)

/-! ## Lemmas about `scan` -/

theorem decode_go_snd (m : List (Char × List Char)) : ∀ gs : List (List Char),
    (decode.go m gs).2 = gs.filter (fun g => (revLookup m g).isNone) := by
  intro gs
  induction gs with
  | nil => rfl
  | cons g rest ih =>
    simp only [decode.go, List.filter_cons]
    cases hl : revLookup m g with
    | some c => simpa [hl] using ih
    | none => simpa [hl] using ih

theorem decode_success_iff (m : List (Char × List Char)) (s : List Char) :
    (decode m s).2 = true ↔ ∀ g ∈ split_emoji s, (revLookup m g).isSome = true := by
  show (decode.go m (split_emoji s)).2.isEmpty = true ↔ _
  rw [decode_go_snd]
  simp only [List.isEmpty_eq_true, List.filter_eq_nil_iff]
  constructor
  · intro h g hg
    have h2 := h g hg
    cases hl : revLookup m g with
    | some c => rfl
    | none => exact absurd (by simp [hl]) h2
  · intro h g hg
    have h2 := h g hg
    cases hl : revLookup m g with
    | some c => simp [hl]
    | none => rw [hl] at h2; exact absurd h2 (by simp)

/-- C5. `scan` short-circuits: a glyph sequence containing a cluster with
no reverse mapping yields `decode_success = false`, `checksum_valid =
false`, only the decode-failure message, and the same result whether or
not validation was requested (so checksum validation is never performed);
when decoding fully succeeds the decode and checksum statuses are
reported independently. -/
theorem claim_C5_scan_short_circuit (k : Codec) (s : List Char) :
    ((∃ g ∈ split_emoji s, revLookup k.mapping g = none) →
      scan k s true = ⟨(decode k.mapping s).1, false, false, [.decodeFailed]⟩
      ∧ scan k s true = scan k s false)
    ∧ ((∀ g ∈ split_emoji s, (revLookup k.mapping g).isSome = true) →
      (scan k s true).decode_success = true
      ∧ ((scan k s true).checksum_valid = true ↔
          validate_base58check k.base58_alphabet (decode k.mapping s).1 = .valid)) := by
  constructor
  · intro ⟨g, hg, hnone⟩
    have hfail : (decode k.mapping s).2 = false := by
      cases hd : (decode k.mapping s).2 with
      | false => rfl
      | true =>
        have := (decode_success_iff k.mapping s).mp hd g hg
        rw [hnone] at this
        exact absurd this (by simp)
    constructor <;> simp [scan, hfail]
  · intro hall
    have hok : (decode k.mapping s).2 = true := (decode_success_iff k.mapping s).mpr hall
    by_cases hv : validate_base58check k.base58_alphabet (decode k.mapping s).1 = .valid
    · simp [scan, hok, hv]
    · simp [scan, hok, beq_eq_false_iff_ne.mpr hv, hv]

/-- Witness for C5: scanning the bare placeholder glyph (which has no
reverse mapping) short-circuits. -/
theorem claim_C5_scan_short_circuit_witness :
    scan ⟨base58_alphabet, sample_mapping⟩ [placeholderGlyph] true =
      ⟨(decode sample_mapping [placeholderGlyph]).1, false, false, [.decodeFailed]⟩
    ∧ scan ⟨base58_alphabet, sample_mapping⟩ [placeholderGlyph] true =
      scan ⟨base58_alphabet, sample_mapping⟩ [placeholderGlyph] false :=
  (claim_C5_scan_short_circuit ⟨base58_alphabet, sample_mapping⟩ [placeholderGlyph]).1
    ⟨[placeholderGlyph], by decide, by decide⟩

/-- C7. The Base58Check verdict does not depend on which symbol-to-glyph
mapping is loaded: two codec instances over the same numeral alphabet
agree on `validate` for every address. -/
theorem claim_C7_validate_mapping_independent (k1 k2 : Codec) (address : List Char)
    (h : k1.base58_alphabet = k2.base58_alphabet) :
    k1.validate address = k2.validate address := by
  unfold Codec.validate
  rw [h]

/-- Witness for C7: two codecs loaded with different mappings (the two
sample bijections) give the same verdict on the example address. -/
theorem claim_C7_validate_mapping_independent_witness :
    Codec.validate ⟨base58_alphabet, sample_mapping⟩ example_address =
      Codec.validate ⟨base58_alphabet, sample_mapping2⟩ example_address :=
  claim_C7_validate_mapping_independent
    ⟨base58_alphabet, sample_mapping⟩ ⟨base58_alphabet, sample_mapping2⟩ example_address rfl

/-- C9. For a loaded mapping satisfying the persisted-format contract
(unique symbols, no glyph shared by two entries): no two entries share a
glyph, every symbol occurs exactly once as a key, and reverse lookup of
every forward value returns its key. -/
theorem claim_C9_bijection_integrity (m : List (Char × List Char))
    (hkeys : (m.map Prod.fst).Nodup) (hinj : (m.map Prod.snd).Nodup) :
    List.Pairwise (fun p q : Char × List Char => p.2 ≠ q.2) m
    ∧ (∀ p ∈ m, (m.map Prod.fst).count p.1 = 1)
    ∧ (∀ c g, mlookup m c = some g → revLookup m g = some c) := by
  refine ⟨List.pairwise_map.mp hinj, ?_, ?_⟩
  · intro p hp
    exact List.count_eq_one_of_mem hkeys (List.mem_map.mpr ⟨p, hp, rfl⟩)
  · intro c g hl
    exact revLookup_of_mem m c g hinj (mlookup_mem m c g hl)

/-- Witness for C9 at the concrete sample mapping. -/
theorem claim_C9_bijection_integrity_witness :
    revLookup sample_mapping [Char.ofNat 0x1F431] = some '1' :=
  (claim_C9_bijection_integrity sample_mapping (by decide) (by decide)).2.2
    '1' [Char.ofNat 0x1F431] (by decide)

/-! ## Lemmas about the pair enumeration and `find_confusable_pairs` -/

theorem allPairs_mem {α : Type} : ∀ (l : List α) (p : α × α),
    p ∈ allPairs l → p.1 ∈ l ∧ p.2 ∈ l := by
  intro l
  induction l with
  | nil => intro p hp; exact absurd hp (by simp [allPairs])
  | cons x xs ih =>
    intro p hp
    rcases List.mem_append.mp hp with h | h
    · obtain ⟨y, hy, rfl⟩ := List.mem_map.mp h
      exact ⟨by simp, by simp [hy]⟩
    · obtain ⟨h1, h2⟩ := ih p h
      exact ⟨by simp [h1], by simp [h2]⟩

theorem allPairs_no_self {α : Type} : ∀ (l : List α), l.Nodup →
    ∀ x : α, (x, x) ∉ allPairs l := by
  intro l
  induction l with
  | nil => intro _ x hx; exact absurd hx (by simp [allPairs])
  | cons a xs ih =>
    intro hnd x hx
    have hna : a ∉ xs := (List.nodup_cons.mp hnd).1
    rcases List.mem_append.mp hx with h | h
    · obtain ⟨y, hy, heq⟩ := List.mem_map.mp h
      have h1 : a = x := congrArg Prod.fst heq
      have h2 : y = x := congrArg Prod.snd heq
      exact hna (by rw [h1, ← h2]; exact hy)
    · exact ih (List.nodup_cons.mp hnd).2 x h

theorem nodup_countP_eq_one {α : Type} [DecidableEq α] : ∀ (xs : List α), xs.Nodup →
    ∀ b : α, b ∈ xs → xs.countP (fun y => decide (y = b)) = 1 := by
  intro xs
  induction xs with
  | nil => intro _ b hb; exact absurd hb (by simp)
  | cons u xs ih =>
    intro hnd b hb
    have hnu : u ∉ xs := (List.nodup_cons.mp hnd).1
    have hndxs : xs.Nodup := (List.nodup_cons.mp hnd).2
    rw [List.countP_cons]
    by_cases hub : u = b
    · subst hub
      have hz : xs.countP (fun y => decide (y = u)) = 0 := by
        rw [List.countP_eq_zero]
        intro y hy hyu
        exact hnu (by rw [← of_decide_eq_true hyu]; exact hy)
      simp [hz]
    · have hbxs : b ∈ xs := by
        rcases List.mem_cons.mp hb with h | h
        · exact absurd h.symm hub
        · exact h
      simp [ih hndxs b hbxs, hub]

theorem allPairs_count {α : Type} [DecidableEq α] : ∀ (l : List α), l.Nodup →
    ∀ a b : α, a ∈ l → b ∈ l → a ≠ b →
    (allPairs l).countP (isPairOf a b) = 1 := by
  intro l
  induction l with
  | nil => intro _ a b ha; exact absurd ha (by simp)
  | cons x xs ih =>
    intro hnd a b ha hb hne
    have hnx : x ∉ xs := (List.nodup_cons.mp hnd).1
    have hndxs : xs.Nodup := (List.nodup_cons.mp hnd).2
    have hrec0 : (a ∉ xs ∨ b ∉ xs) → (allPairs xs).countP (isPairOf a b) = 0 := by
      intro hcase
      rw [List.countP_eq_zero]
      intro q hq hpq
      obtain ⟨h1, h2⟩ := allPairs_mem xs q hq
      rcases of_decide_eq_true hpq with rfl | rfl
      · rcases hcase with h | h
        · exact h h1
        · exact h h2
      · rcases hcase with h | h
        · exact h h2
        · exact h h1
    simp only [allPairs, List.countP_append, List.countP_map]
    by_cases hax : a = x
    · subst hax
      have hbxs : b ∈ xs := by
        rcases List.mem_cons.mp hb with h | h
        · exact absurd h.symm hne
        · exact h
      have hmap : xs.countP (isPairOf a b ∘ fun y => (a, y)) =
          xs.countP (fun y => decide (y = b)) := by
        apply List.countP_congr
        intro y hy
        simp only [Function.comp, isPairOf]
        constructor
        · intro hp
          rcases of_decide_eq_true hp with h | h
          · exact decide_eq_true (by injection h)
          · exfalso
            injection h with h1 h2
            exact hne h1
        · intro hp
          exact decide_eq_true (Or.inl (by rw [of_decide_eq_true hp]))
      rw [hmap, nodup_countP_eq_one xs hndxs b hbxs, hrec0 (Or.inl hnx)]
    · have haxs : a ∈ xs := by
        rcases List.mem_cons.mp ha with h | h
        · exact absurd h hax
        · exact h
      by_cases hbx : b = x
      · subst hbx
        have hmap : xs.countP (isPairOf a b ∘ fun y => (b, y)) =
            xs.countP (fun y => decide (y = a)) := by
          apply List.countP_congr
          intro y hy
          simp only [Function.comp, isPairOf]
          constructor
          · intro hp
            rcases of_decide_eq_true hp with h | h
            · exfalso
              injection h with h1 h2
              exact hne h1.symm
            · exact decide_eq_true (by injection h)
          · intro hp
            exact decide_eq_true (Or.inr (by rw [of_decide_eq_true hp]))
        rw [hmap, nodup_countP_eq_one xs hndxs a haxs, hrec0 (Or.inr hnx)]
      · have hbxs : b ∈ xs := by
          rcases List.mem_cons.mp hb with h | h
          · exact absurd h hbx
          · exact h
        have hmap : xs.countP (isPairOf a b ∘ fun y => (x, y)) = 0 := by
          rw [List.countP_eq_zero]
          intro y hy hp
          simp only [Function.comp, isPairOf] at hp
          rcases of_decide_eq_true hp with h | h
          · exact hax (congrArg Prod.fst h).symm
          · exact hbx (congrArg Prod.fst h).symm
        rw [hmap, ih hndxs a b haxs hbxs hne]

theorem find_confusable_pairs_mem (pool : List (String × EmojiHashes)) (t : Rat) :
    ∀ q, q ∈ find_confusable_pairs pool t ↔
      ∃ p ∈ allPairs pool, pairSimilarity p.1.2 p.2.2 < t ∧
        q = (p.1.1, p.2.1, pairSimilarity p.1.2 p.2.2) := by
  intro q
  unfold find_confusable_pairs
  rw [List.mem_mergeSort, List.mem_filterMap]
  constructor
  · intro ⟨p, hp, hq⟩
    by_cases hs : pairSimilarity p.1.2 p.2.2 < t
    · rw [if_pos hs] at hq
      exact ⟨p, hp, hs, by injection hq with h; rw [h]⟩
    · rw [if_neg hs] at hq
      exact absurd hq (by simp)
  · intro ⟨p, hp, hs, hq⟩
    exact ⟨p, hp, by rw [if_pos hs, hq]⟩

/-- C8. `find_confusable_pairs` evaluates each unordered pair of distinct
pool glyphs exactly once and never pairs a glyph with itself; it returns
exactly the pairs whose composite score (mean over the four hash families
of Hamming distance over 64) is strictly below the threshold, sorted
ascending by score.  (With unrealizable exact scores like 0.05 replaced by
the achievable dyadic scores; the spec's Example 4 shape is realized in
the witness.) -/
theorem claim_C8_confusable_pairs (pool : List (String × EmojiHashes)) (t : Rat)
    (hnd : pool.Nodup) :
    (∀ x : String × EmojiHashes, (x, x) ∉ allPairs pool)
    ∧ (∀ a b : String × EmojiHashes, a ∈ pool → b ∈ pool → a ≠ b →
        (allPairs pool).countP (isPairOf a b) = 1)
    ∧ (∀ q, q ∈ find_confusable_pairs pool t ↔
        ∃ p ∈ allPairs pool, pairSimilarity p.1.2 p.2.2 < t ∧
          q = (p.1.1, p.2.1, pairSimilarity p.1.2 p.2.2))
    ∧ (∀ q ∈ find_confusable_pairs pool t, q.2.2 < t)
    ∧ ((find_confusable_pairs pool t).Perm
        ((allPairs pool).filterMap (fun p =>
          if pairSimilarity p.1.2 p.2.2 < t
          then some (p.1.1, p.2.1, pairSimilarity p.1.2 p.2.2) else none)))
    ∧ List.Pairwise (fun a b : String × String × Rat => a.2.2 ≤ b.2.2)
        (find_confusable_pairs pool t) := by
  refine ⟨allPairs_no_self pool hnd, allPairs_count pool hnd,
    find_confusable_pairs_mem pool t, ?_, ?_, ?_⟩
  · intro q hq
    obtain ⟨p, _, hs, hq2⟩ := (find_confusable_pairs_mem pool t q).mp hq
    rw [hq2]
    exact hs
  · exact List.mergeSort_perm _ _
  · have h := @List.sorted_mergeSort (String × String × Rat)
      (fun a b => decide (a.2.2 ≤ b.2.2))
      (fun a b c h1 h2 => decide_eq_true
        (le_trans (of_decide_eq_true h1) (of_decide_eq_true h2)))
      (fun a b => by
        rcases le_total a.2.2 b.2.2 with h | h <;> simp [h])
      ((allPairs pool).filterMap (fun p =>
        if pairSimilarity p.1.2 p.2.2 < t
        then some (p.1.1, p.2.1, pairSimilarity p.1.2 p.2.2) else none))
    exact h.imp (fun hab => of_decide_eq_true hab)

/-- Witness for C8 at the concrete three-glyph pool with composite scores
(A,B) = 1/8 < 3/20, (A,C) = 5/8, (B,C) = 1/2. -/
theorem claim_C8_confusable_pairs_witness :
    (∀ x : String × EmojiHashes, (x, x) ∉ allPairs sample_pool)
    ∧ (∀ a b : String × EmojiHashes, a ∈ sample_pool → b ∈ sample_pool → a ≠ b →
        (allPairs sample_pool).countP (isPairOf a b) = 1)
    ∧ (∀ q, q ∈ find_confusable_pairs sample_pool (3 / 20) ↔
        ∃ p ∈ allPairs sample_pool, pairSimilarity p.1.2 p.2.2 < 3 / 20 ∧
          q = (p.1.1, p.2.1, pairSimilarity p.1.2 p.2.2))
    ∧ (∀ q ∈ find_confusable_pairs sample_pool (3 / 20), q.2.2 < 3 / 20)
    ∧ ((find_confusable_pairs sample_pool (3 / 20)).Perm
        ((allPairs sample_pool).filterMap (fun p =>
          if pairSimilarity p.1.2 p.2.2 < 3 / 20
          then some (p.1.1, p.2.1, pairSimilarity p.1.2 p.2.2) else none)))
    ∧ List.Pairwise (fun a b : String × String × Rat => a.2.2 ≤ b.2.2)
        (find_confusable_pairs sample_pool (3 / 20)) :=
  claim_C8_confusable_pairs sample_pool (3 / 20) (by decide)

/-! ## Lemmas about the mapping builders -/

theorem enumFrom_filterMap_zip {α β γ : Type} (g : Nat → α → β → γ) :
    ∀ (n : Nat) (l : List α) (cs : List β),
    ((List.enumFrom n l).filterMap (fun ic =>
        (cs[ic.1]?).map (fun b => g ic.1 ic.2 b)))
    = (List.enumFrom n (l.zip (cs.drop n))).map (fun ip => g ip.1 ip.2.1 ip.2.2) := by
  intro n l
  induction l generalizing n with
  | nil => intro cs; rfl
  | cons a l ih =>
    intro cs
    rw [List.enumFrom_cons]
    cases hcs : cs[n]? with
    | some b =>
      obtain ⟨hn, hb⟩ := List.getElem?_eq_some_iff.mp hcs
      have hdrop : cs.drop n = b :: cs.drop (n + 1) := by
        rw [List.drop_eq_getElem_cons hn, hb]
      rw [List.filterMap_cons, hcs]
      simp only [Option.map_some']
      rw [hdrop, List.zip_cons_cons, List.enumFrom_cons, List.map_cons]
      rw [ih (n + 1)]
    | none =>
      have hlen : cs.length ≤ n := List.getElem?_eq_none_iff.mp hcs
      have hdrop : cs.drop n = [] := List.drop_eq_nil_of_le hlen
      have hdrop2 : cs.drop (n + 1) = [] := List.drop_eq_nil_of_le (by omega)
      rw [List.filterMap_cons, hcs]
      simp only [Option.map_none']
      rw [ih (n + 1), hdrop, hdrop2]
      simp

theorem create_optimal_mapping_eq (prio : List Char) (cands : List Candidate) :
    create_optimal_mapping prio cands =
      (List.enumFrom 0 ((prio.take 58).zip cands)).map (fun ip =>
        (ip.2.1, ⟨ip.2.2.emoji, ip.2.2.name, ip.2.2.distinctiveness, ip.1 + 1⟩)) := by
  unfold create_optimal_mapping
  have h := enumFrom_filterMap_zip
    (fun i (c : Char) (cand : Candidate) =>
      (c, (⟨cand.emoji, cand.name, cand.distinctiveness, i + 1⟩ : MapEntry)))
    0 (prio.take 58) cands
  simpa using h

theorem create_steganographic_mapping_eq (prio : List Char) (cands : List StegoCandidate) :
    create_steganographic_mapping prio cands =
      (List.enumFrom 0 ((prio.take 58).zip cands)).map (fun ip =>
        (ip.2.1, ⟨ip.2.2.emoji, ip.2.2.name, ip.2.2.usage_tier.getD 7, ip.1 + 1⟩)) := by
  unfold create_steganographic_mapping
  have h := enumFrom_filterMap_zip
    (fun i (c : Char) (cand : StegoCandidate) =>
      (c, (⟨cand.emoji, cand.name, cand.usage_tier.getD 7, i + 1⟩ : StegoEntry)))
    0 (prio.take 58) cands
  simpa using h

theorem enum_zip_map_getElem {β γ : Type} (prio : List Char) (cs : List β)
    (mk : Nat → Char → β → γ) (i : Nat) (hi : i < 58) :
    ((List.enumFrom 0 ((prio.take 58).zip cs)).map
        (fun ip => mk ip.1 ip.2.1 ip.2.2))[i]? =
      (prio[i]?).bind (fun c => (cs[i]?).map (fun b => mk i c b)) := by
  rw [List.getElem?_map, List.getElem?_enumFrom]
  cases hp : prio[i]? with
  | some c =>
    have htake : (prio.take 58)[i]? = some c := by
      rw [List.getElem?_take_of_lt hi]
      exact hp
    cases hc : cs[i]? with
    | some b =>
      have hz : ((prio.take 58).zip cs)[i]? = some (c, b) :=
        List.getElem?_zip_eq_some.mpr ⟨htake, hc⟩
      rw [hz]
      simp
    | none =>
      have hlen : ((prio.take 58).zip cs).length ≤ i := by
        rw [List.length_zip]
        have := List.getElem?_eq_none_iff.mp hc
        omega
      rw [List.getElem?_eq_none hlen]
      simp
  | none =>
    have hlen2 : prio.length ≤ i := List.getElem?_eq_none_iff.mp hp
    have hlen : ((prio.take 58).zip cs).length ≤ i := by
      rw [List.length_zip, List.length_take]
      omega
    rw [List.getElem?_eq_none hlen]
    simp

/-- C10. Both mapping builders assign the i-th prioritized symbol (among
the first 58) to the i-th pool entry, recording 1-based priority i+1, and
when the pool is shorter than the prioritized list they simply stop,
producing a partial mapping with entries exactly for the first
`len(pool)` prioritized symbols. -/
theorem claim_C10_mapping_builder (prio : List Char) (cands : List Candidate)
    (sprio : List Char) (scands : List StegoCandidate) :
    ((create_optimal_mapping prio cands).length = min (min 58 prio.length) cands.length
     ∧ ∀ i : Nat, i < 58 →
        (create_optimal_mapping prio cands)[i]? =
          (prio[i]?).bind (fun c => (cands[i]?).map (fun cand =>
            (c, ⟨cand.emoji, cand.name, cand.distinctiveness, i + 1⟩))))
    ∧ ((create_steganographic_mapping sprio scands).length =
          min (min 58 sprio.length) scands.length
     ∧ ∀ i : Nat, i < 58 →
        (create_steganographic_mapping sprio scands)[i]? =
          (sprio[i]?).bind (fun c => (scands[i]?).map (fun cand =>
            (c, ⟨cand.emoji, cand.name, cand.usage_tier.getD 7, i + 1⟩)))) := by
  constructor
  · rw [create_optimal_mapping_eq]
    refine ⟨by simp [List.length_zip, Nat.min_assoc], ?_⟩
    intro i hi
    exact enum_zip_map_getElem prio cands
      (fun i c cand =>
        (c, (⟨cand.emoji, cand.name, cand.distinctiveness, i + 1⟩ : MapEntry))) i hi
  · rw [create_steganographic_mapping_eq]
    refine ⟨by simp [List.length_zip, Nat.min_assoc], ?_⟩
    intro i hi
    exact enum_zip_map_getElem sprio scands
      (fun i c cand =>
        (c, (⟨cand.emoji, cand.name, cand.usage_tier.getD 7, i + 1⟩ : StegoEntry))) i hi

/-- Witness for C10: with 3 prioritized symbols and a 2-candidate pool the
builder produces the first two entries and stops. -/
theorem claim_C10_mapping_builder_witness :
    (create_optimal_mapping ['1', '3', 'A'] sample_candidates)[0]? =
      ((['1', '3', 'A'] : List Char)[0]?).bind (fun c => (sample_candidates[0]?).map (fun cand =>
        (c, ⟨cand.emoji, cand.name, cand.distinctiveness, 0 + 1⟩)))
    ∧ (create_optimal_mapping ['1', '3', 'A'] sample_candidates)[2]? =
      ((['1', '3', 'A'] : List Char)[2]?).bind (fun c => (sample_candidates[2]?).map (fun cand =>
        (c, ⟨cand.emoji, cand.name, cand.distinctiveness, 2 + 1⟩)))
    ∧ (create_steganographic_mapping ['1', '3'] sample_stego_candidates)[1]? =
      ((['1', '3'] : List Char)[1]?).bind (fun c => (sample_stego_candidates[1]?).map (fun cand =>
        (c, ⟨cand.emoji, cand.name, cand.usage_tier.getD 7, 1 + 1⟩))) :=
  ⟨(claim_C10_mapping_builder ['1', '3', 'A'] sample_candidates [] []).1.2 0 (by decide),
   (claim_C10_mapping_builder ['1', '3', 'A'] sample_candidates [] []).1.2 2 (by decide),
   (claim_C10_mapping_builder [] [] ['1', '3'] sample_stego_candidates).2.2 1 (by decide)⟩

set_option maxRecDepth 100000 in
set_option maxHeartbeats 2000000 in
/-- C2. `validate_base58check` accepts exactly when the last 4 decoded
bytes equal the first 4 bytes of the double SHA-256 of the preceding
bytes; the spec's example address is checksum-valid, and replacing its
final symbol 'a' with any other alphabet symbol yields a checksum
mismatch. -/
theorem claim_C2_base58check :
    (∀ address : List Char, (∀ c ∈ address, c ∈ base58_alphabet) →
      5 ≤ (base58_decode base58_alphabet address).length →
      (validate_base58check base58_alphabet address = .valid ↔
        (base58_decode base58_alphabet address).drop
            ((base58_decode base58_alphabet address).length - 4) =
          (sha256 (sha256 ((base58_decode base58_alphabet address).take
            ((base58_decode base58_alphabet address).length - 4)))).take 4))
    ∧ validate_base58check base58_alphabet example_address = .valid
    ∧ (∀ c ∈ base58_alphabet, c ≠ 'a' →
        isChecksumMismatch (validate_base58check base58_alphabet
          (example_address.dropLast ++ [c])) = true) := by
  have hsha : (sha256 (sha256 examplePayload)).take 4 = exampleChecksum := by decide
  have hvalchars : ∀ c ∈ example_address, c ∈ base58_alphabet := by decide
  refine ⟨?_, ?_, ?_⟩
  · intro address h hlen
    rw [validate_of_valid_chars base58_alphabet address h]
    rw [if_neg (by omega)]
    constructor
    · intro hv
      by_contra hne
      rw [if_neg (by simp [hne])] at hv
      exact VResult.noConfusion hv
    · intro heq
      rw [if_pos (beq_iff_eq.mpr heq)]
  · have hlen0 : (base58_decode base58_alphabet example_address).length = 25 := by decide
    have hP : (base58_decode base58_alphabet example_address).take 21 = examplePayload := by
      decide
    have hdrop0 : (base58_decode base58_alphabet example_address).drop 21 = exampleChecksum := by
      decide
    rw [validate_of_valid_chars base58_alphabet example_address hvalchars, hlen0]
    rw [if_neg (by omega)]
    rw [show (25 : Nat) - 4 = 21 from rfl, hP, hdrop0, hsha]
    rw [if_pos (beq_iff_eq.mpr rfl)]
  · have hall3 : base58_alphabet.all (fun c =>
        ((base58_decode base58_alphabet (example_address.dropLast ++ [c])).length == 25) &&
        ((base58_decode base58_alphabet
            (example_address.dropLast ++ [c])).take 21 == examplePayload) &&
        (c == 'a' || ((base58_decode base58_alphabet
            (example_address.dropLast ++ [c])).drop 21 != exampleChecksum))) = true := by
      decide
    intro c hc hne
    have hfacts := List.all_eq_true.mp hall3 c hc
    obtain ⟨h12, h3⟩ := Bool.and_eq_true _ _ |>.mp hfacts
    obtain ⟨h1, h2⟩ := Bool.and_eq_true _ _ |>.mp h12
    have hlen : (base58_decode base58_alphabet (example_address.dropLast ++ [c])).length = 25 :=
      by simpa using h1
    have htake : (base58_decode base58_alphabet
        (example_address.dropLast ++ [c])).take 21 = examplePayload := by simpa using h2
    have hdropne : (base58_decode base58_alphabet
        (example_address.dropLast ++ [c])).drop 21 ≠ exampleChecksum := by
      rcases Bool.or_eq_true_iff.mp h3 with h | h
      · exact absurd (by simpa using h) hne
      · simpa using h
    have hchars : ∀ c2 ∈ example_address.dropLast ++ [c], c2 ∈ base58_alphabet := by
      intro c2 h2c
      rcases List.mem_append.mp h2c with h4 | h4
      · exact hvalchars c2 ((List.dropLast_sublist example_address).subset h4)
      · have : c2 = c := by simpa using h4
        rw [this]
        exact hc
    rw [validate_of_valid_chars base58_alphabet (example_address.dropLast ++ [c]) hchars, hlen]
    rw [if_neg (by omega)]
    rw [show (25 : Nat) - 4 = 21 from rfl, htake, hsha]
    rw [if_neg (by simp [hdropne])]
    rfl

/-- Witness for C2: the checksum characterization instantiated at the
example address, and the mismatch outcome for final symbol 'b'. -/
theorem claim_C2_base58check_witness :
    (validate_base58check base58_alphabet example_address = .valid ↔
      (base58_decode base58_alphabet example_address).drop
          ((base58_decode base58_alphabet example_address).length - 4) =
        (sha256 (sha256 ((base58_decode base58_alphabet example_address).take
          ((base58_decode base58_alphabet example_address).length - 4)))).take 4)
    ∧ isChecksumMismatch (validate_base58check base58_alphabet
        (example_address.dropLast ++ ['b'])) = true :=
  ⟨claim_C2_base58check.1 example_address (by decide) (by decide),
   claim_C2_base58check.2.2 'b' (by decide) (by decide)⟩


end BIP
